import Mathlib

/-!
Verification of the DeepRecall incremental indexing and vector-retrieval core.

This file gives a shallow embedding, in Lean 4, of the Go code under
`internal/services/{context,retriever,orchestrator}`:

* `models.Chunk` / `models.Document` (internal/models) become the structures
  `Chunk` and `Document`.  The untyped `Metadata` map is omitted: no claim and
  no control flow depends on it.  Go `float32`/`float64` values are modelled as
  real numbers (`ℝ`), so floating-point rounding is abstracted to exact real
  arithmetic.  Go `string` values are `String`, `[]rune` conversions are
  `String.data : List Char`, byte lengths (`len(s)`) are `String.utf8ByteSize`.

* Go maps (`map[string]*models.Chunk`, the indexer's `docCache`, the on-disk
  cache directory) become association lists `List (String × α)` with
  `mapFind` / `mapInsert`; upsert semantics matches map assignment and
  bbolt `Put`.  Go map iteration order is unspecified at runtime, so functions
  that iterate a map (`Search`, `loadIntoMemory`) take the entry list in an
  arbitrary order and theorems quantify over that order where it matters.

* Fallible effects (file I/O, gob encode/decode, bbolt operations, the
  embedding provider) are oracles passed in as function arguments returning
  `Option`/`Bool`; a bbolt `Update` transaction is modelled by computing the
  updated bucket contents and discarding them (rollback) when the closure
  returns an error.

* The unbounded `for` loop of `chunkFixed` (embedder.go) does not terminate
  for every configuration, so it is embedded step-indexed: `chunkFixedGo`
  takes a fuel argument and returns `none` when the fuel runs out; divergence
  of the Go loop is `= none` for every fuel.
-/

/-- `models.Chunk` (internal/models/models.go).  `Metadata` omitted. -/
structure Chunk where
  id : String
  documentID : String
  content : String
  embedding : List ℝ
  index : ℕ

/-- `models.Document` (internal/models/models.go).  `Metadata` and `ParsedAt`
omitted; `FileModTime` is modelled as an integer timestamp. -/
structure Document where
  id : String
  filePath : String
  content : String
  hash : String
  fileModTime : ℤ

/-- `models.RetrievalResult` (internal/models/models.go). -/
structure RetrievalResult where
  chunk : Chunk
  score : ℝ
  documentID : String

/-- Association-list lookup, modelling Go map indexing / bbolt `Get`. -/
def mapFind {α : Type} (k : String) : List (String × α) → Option α
  | [] => none
  | (k', v) :: rest => if k' = k then some v else mapFind k rest

/-- Association-list upsert, modelling Go map assignment / bbolt `Put`. -/
def mapInsert {α : Type} (k : String) (v : α) : List (String × α) → List (String × α)
  | [] => [(k, v)]
  | (k', v') :: rest => if k' = k then (k, v) :: rest else (k', v') :: mapInsert k v rest

/-- `unicode.IsSpace` restricted to the Latin-1 range, which is where Go's
`strings.TrimSpace` fast path operates; all text in this development is
ASCII.  (For code points above U+00FF Go consults the Unicode White_Space
property, not modelled.) -/
def goIsSpace (c : Char) : Bool :=
  c = '\t' || c = '\n' || c = Char.ofNat 11 || c = Char.ofNat 12 || c = '\r' ||
    c = ' ' || c = Char.ofNat 0x85 || c = Char.ofNat 0xA0

/-- `strings.TrimSpace` on a rune list: drop leading and trailing whitespace. -/
def goTrimSpace (l : List Char) : List Char :=
  ((l.dropWhile goIsSpace).reverse.dropWhile goIsSpace).reverse

/-- `strings.TrimSpace` on a string. -/
def goTrimSpaceS (s : String) : String :=
  String.mk (goTrimSpace s.data)

/-!
## Chunker (internal/services/context/embedder.go)

`chunkFixed` is the loop

```
for i := 0; i < len(runes); i += (size - overlap) {
    end := i + size
    if end > len(runes) { end = len(runes) }
    content := string(runes[i:end])
    chunks = append(chunks, &models.Chunk{ ..., Content: strings.TrimSpace(content), Index: len(chunks)})
    if end >= len(runes) { break }
}
```

`size` and `overlap` are Go `int`s; configurations are non-negative, so they
are modelled as `ℕ`, and the loop stride `size - overlap` is truncated
subtraction: a configuration with `size ≤ overlap` has stride `0` and the
loop never advances (in Go, `size = overlap` loops forever and `size <
overlap` eventually panics on a negative slice index; both are "no normal
result", `none` here for every fuel).
-/

/-- One step of the `chunkFixed` loop per unit of fuel; `i` is the window
start, `idx` is `len(chunks)` so far.  `none` means the fuel ran out before
the loop finished. -/
def chunkFixedGo (docID : String) (runes : List Char) (size overlap : ℕ) :
    ℕ → ℕ → ℕ → Option (List Chunk)
  | 0, _, _ => none
  | fuel + 1, i, idx =>
    if i < runes.length then
      let e := min (i + size) runes.length
      let c : Chunk :=
        { id := "", documentID := docID,
          content := String.mk (goTrimSpace ((runes.drop i).take (e - i))),
          embedding := [], index := idx }
      if runes.length ≤ e then some [c]
      else (chunkFixedGo docID runes size overlap fuel (i + (size - overlap)) (idx + 1)).map
        (fun rest => c :: rest)
    else some []

/-- `Embedder.chunkFixed doc text size overlap`, with enough fuel for every
terminating configuration (the stride is at least 1, so at most
`len(runes)` iterations happen; see `chunkFixedGo_some_of_lt`). -/
def chunkFixed (docID : String) (text : String) (size overlap : ℕ) : Option (List Chunk) :=
  chunkFixedGo docID text.data size overlap (text.data.length + 1) 0 0

/-- The window sequence the `chunkFixed` loop slices out of `runes`,
step-indexed exactly like `chunkFixedGo`. -/
def goWindowsGo (runes : List Char) (size stride : ℕ) : ℕ → ℕ → Option (List (List Char))
  | 0, _ => none
  | fuel + 1, i =>
    if i < runes.length then
      let e := min (i + size) runes.length
      let w := (runes.drop i).take (e - i)
      if runes.length ≤ e then some [w]
      else (goWindowsGo runes size stride fuel (i + stride)).map (fun rest => w :: rest)
    else some []

/-- Build the chunk records of `chunkFixed` from its window sequence:
contents are the whitespace-trimmed windows, indices count up from `idx`. -/
def mkChunks (docID : String) : ℕ → List (List Char) → List Chunk
  | _, [] => []
  | idx, w :: ws =>
    { id := "", documentID := docID, content := String.mk (goTrimSpace w),
      embedding := [], index := idx } :: mkChunks docID (idx + 1) ws

/-- Overlap-aware concatenation of a window sequence: the first window whole,
every later window with its first `overlap` code points (shared with its
predecessor) removed. -/
def overlapJoin (overlap : ℕ) : List (List Char) → List Char
  | [] => []
  | w :: ws => w ++ (ws.map (List.drop overlap)).flatten

/-- Two consecutive `chunkFixed` windows share exactly the `overlap` code
points where they meet: what the earlier window holds past the stride is
what the later window starts with. -/
def windowOverlapRel (size overlap : ℕ) (u v : List Char) : Prop :=
  u.drop (size - overlap) = v.take overlap

/-!  `splitSentences` and `chunkRecursive` (embedder.go), needed to complete
the `ChunkDocument` dispatch.  `strings.Builder` state is a `String`
accumulator; `Len()` is the UTF-8 byte size. -/

/-- `strings.Fields`: split around whitespace, dropping empty fields. -/
def goFields (s : String) : List String :=
  (s.split goIsSpace).filter (fun w => w ≠ "")

/-- Loop body of `splitSentences`: walk the runes, cut after `.`/`!`/`?`
followed by whitespace. -/
def splitSentencesAux : List Char → List Char → List String
  | [], current => if current.length > 0 then [goTrimSpaceS (String.mk current)] else []
  | c :: rest, current =>
    let current' := current ++ [c]
    if (c = '.' || c = '!' || c = '?') &&
        (match rest with | d :: _ => goIsSpace d | [] => false) then
      goTrimSpaceS (String.mk current') :: splitSentencesAux rest []
    else splitSentencesAux rest current'

/-- `splitSentences` (embedder.go). -/
def splitSentencesGo (text : String) : List String :=
  splitSentencesAux text.data []

/-- Mutable state of the `chunkRecursive` loops: emitted chunks, next chunk
index, and the `strings.Builder` accumulator. -/
structure RecState where
  chunks : List Chunk
  idx : ℕ
  current : String

/-- Chunk record emitted by `chunkRecursive` (content trimmed, no id). -/
def mkRecChunk (docID : String) (content : String) (idx : ℕ) : Chunk :=
  { id := "", documentID := docID, content := goTrimSpaceS content,
    embedding := [], index := idx }

/-- Inner sentence loop body of `chunkRecursive`: flush the accumulator
(seeding a word-level overlap tail) when the next sentence would overflow
`size` bytes, then append the sentence. -/
def sentenceStep (docID : String) (size overlap : ℕ) (st : RecState) (sent : String) :
    RecState :=
  let st₁ :=
    if size < st.current.utf8ByteSize + sent.utf8ByteSize then
      if 0 < st.current.utf8ByteSize then
        let words := goFields st.current
        let ow := min (overlap / 10) words.length
        let seeded :=
          if 0 < ow then String.intercalate " " (words.drop (words.length - ow)) ++ " "
          else ""
        { chunks := st.chunks ++ [mkRecChunk docID st.current st.idx],
          idx := st.idx + 1, current := seeded }
      else st
    else st
  { st₁ with current := st₁.current ++ sent ++ " " }

/-- Paragraph loop body of `chunkRecursive`. -/
def paraStep (docID : String) (size overlap : ℕ) (st : RecState) (para : String) :
    RecState :=
  let para := goTrimSpaceS para
  if para = "" then st
  else if size < para.utf8ByteSize then
    (splitSentencesGo para).foldl (sentenceStep docID size overlap) st
  else
    let st₁ :=
      if size < st.current.utf8ByteSize + para.utf8ByteSize then
        if 0 < st.current.utf8ByteSize then
          { chunks := st.chunks ++ [mkRecChunk docID st.current st.idx],
            idx := st.idx + 1, current := "" }
        else st
      else st
    { st₁ with current := st₁.current ++ para ++ "\n\n" }

/-- `Embedder.chunkRecursive` (embedder.go): paragraphs split on `"\n\n"`,
oversized paragraphs split into sentences, greedy accumulation, final flush. -/
def chunkRecursiveGo (docID : String) (text : String) (size overlap : ℕ) : List Chunk :=
  let st := (text.splitOn "\n\n").foldl (paraStep docID size overlap) ⟨[], 0, ""⟩
  if 0 < st.current.utf8ByteSize then st.chunks ++ [mkRecChunk docID st.current st.idx]
  else st.chunks

/-- `config.ChunkingConfig` (the fields `ChunkDocument` reads). -/
structure ChunkingConfig where
  method : String
  chunkSize : ℕ
  chunkOverlap : ℕ
  minChunkSize : ℕ

/-- `Embedder.ChunkDocument` (embedder.go): dispatch on the configured
method, then drop chunks whose trimmed content is below `minChunkSize`
bytes.  `none` propagates divergence of the `fixed` loop. -/
def ChunkDocumentGo (cfg : ChunkingConfig) (doc : Document) : Option (List Chunk) :=
  let chunksO : Option (List Chunk) :=
    if cfg.method = "fixed" then chunkFixed doc.id doc.content cfg.chunkSize cfg.chunkOverlap
    else if cfg.method = "recursive" then
      some (chunkRecursiveGo doc.id doc.content cfg.chunkSize cfg.chunkOverlap)
    else chunkFixed doc.id doc.content cfg.chunkSize cfg.chunkOverlap
  chunksO.map (fun cs =>
    cs.filter (fun c => cfg.minChunkSize ≤ (goTrimSpaceS c.content).utf8ByteSize))

/-!
## Vector store (internal/services/retriever/vectorstore.go)

`VectorStore` holds a bbolt database (the `chunks` bucket) and the in-memory
mirror `memory map[string]*models.Chunk`.  Both are association lists here.
gob-decoding of a stored value returns the stored `Chunk` itself (gob
round-trips these records), so the durable bucket stores `Chunk` values
directly and encode failures are an oracle `encodeOk`; bbolt `Put`/`Delete`
failures are the oracles `putOk`/`deleteOk`.  A `db.Update` transaction
commits the new bucket contents when the closure returns `nil` and rolls
them back when it returns an error — but assignments to `vs.memory` made
inside the closure are ordinary map writes and are never rolled back.
-/

/-- The two components of `retriever.VectorStore` that carry state. -/
structure VectorStore where
  durable : List (String × Chunk)
  memory : List (String × Chunk)

/-- The `for _, chunk := range chunks` loop of `AddChunks`, threading the
transaction's bucket contents `tx` and the in-memory map `mem`.  Returns the
error (if any), the bucket contents as mutated inside the transaction, and
the memory map. -/
def addChunksLoop (encodeOk : Chunk → Bool) (putOk : String → Bool) :
    List Chunk → List (String × Chunk) → List (String × Chunk) →
      Option String × List (String × Chunk) × List (String × Chunk)
  | [], tx, mem => (none, tx, mem)
  | c :: rest, tx, mem =>
    let c' := if c.id = "" then { c with id := c.documentID ++ "_" ++ Nat.repr c.index } else c
    if encodeOk c' = false then (some "failed to encode chunk", tx, mem)
    else if putOk c'.id = false then (some "put failed", tx, mem)
    else addChunksLoop encodeOk putOk rest (mapInsert c'.id c' tx) (mapInsert c'.id c' mem)

/-- `VectorStore.AddChunks`: on a loop error the transaction rolls the bucket
back to `vs.durable`, but the memory writes already made stay. -/
def AddChunksGo (encodeOk : Chunk → Bool) (putOk : String → Bool) (vs : VectorStore)
    (chunks : List Chunk) : VectorStore × Option String :=
  match addChunksLoop encodeOk putOk chunks vs.durable vs.memory with
  | (none, tx, mem) => ({ durable := tx, memory := mem }, none)
  | (some e, _, mem) => ({ durable := vs.durable, memory := mem }, some e)

/-- `VectorStore.DeleteByDocumentID`: the cursor pass collects the keys of
every durable record whose `DocumentID` matches and deletes them from
`vs.memory` immediately; the `bucket.Delete` pass then runs inside the
transaction, so if any delete fails the durable bucket is rolled back while
the memory deletions keep their effect.  (Records that fail to gob-decode
are skipped by the cursor; decoding is total in this model.) -/
def DeleteByDocumentIDGo (deleteOk : String → Bool) (vs : VectorStore) (docID : String) :
    VectorStore × Option String :=
  let toDelete := (vs.durable.filter (fun kv => kv.2.documentID = docID)).map Prod.fst
  let mem' := vs.memory.filter (fun kv => !(toDelete.contains kv.1))
  if toDelete.all deleteOk then
    ({ durable := vs.durable.filter (fun kv => !(toDelete.contains kv.1)), memory := mem' },
      none)
  else ({ durable := vs.durable, memory := mem' }, some "delete failed")

/-- `VectorStore.loadIntoMemory`: cursor over the chunks bucket, inserting
each decoded record into the fresh memory map. -/
def loadIntoMemoryGo (durable : List (String × Chunk)) : List (String × Chunk) :=
  durable.foldl (fun mem kv => mapInsert kv.1 kv.2 mem) []

/-- `NewVectorStore` after bucket creation succeeded on an existing database
holding `durable`: the mirror is rebuilt by a full scan before any query is
served. -/
def NewVectorStoreGo (durable : List (String × Chunk)) : VectorStore :=
  { durable := durable, memory := loadIntoMemoryGo durable }

/-- Key-exact agreement of the mirror with the durable `chunks` bucket.
This is the inductive invariant the store's success paths actually maintain
(both sides perform the same keyed upserts/deletes); the claim's weaker
superset-consistency (`supersetConsistent`, defined after `Search`) follows
from it. -/
def mirrorConsistent (vs : VectorStore) : Prop :=
  ∀ k, mapFind k vs.memory = mapFind k vs.durable

/-- `cosineSimilarity`'s three accumulators `dotProduct`, `normA`, `normB`
are sums over the index range; over equal-length lists the single loop is
this recursion (`dotL a a` is `normA`). -/
def dotL : List ℝ → List ℝ → ℝ
  | a :: as, b :: bs => a * b + dotL as bs
  | _, _ => 0

/-- `cosineSimilarity` (vectorstore.go): 0 on dimension mismatch, 0 on a
zero norm, otherwise the normalised dot product. -/
noncomputable def cosineSimilarity (a b : List ℝ) : ℝ :=
  if a.length ≠ b.length then 0
  else if dotL a a = 0 ∨ dotL b b = 0 then 0
  else dotL a b / (Real.sqrt (dotL a a) * Real.sqrt (dotL b b))

/-- The ordering `sort.Slice` is asked to establish in `Search`:
descending by score. -/
def scoreGE (a b : RetrievalResult) : Prop :=
  b.score ≤ a.score

noncomputable instance : DecidableRel scoreGE :=
  fun a b => inferInstanceAs (Decidable (b.score ≤ a.score))

instance : IsTotal RetrievalResult scoreGE :=
  ⟨fun a b => (le_total b.score a.score).imp id id⟩

instance : IsTrans RetrievalResult scoreGE :=
  ⟨fun _ _ _ hab hbc => le_trans hbc hab⟩

/-- The scoring pass of `Search`: walk the mirror entries (in the iteration
order given by the list), skip chunks with no embedding, keep scores at or
above the threshold. -/
noncomputable def searchScores (memory : List (String × Chunk)) (q : List ℝ)
    (threshold : ℝ) : List RetrievalResult :=
  memory.filterMap (fun kv =>
    if kv.2.embedding.length = 0 then none
    else if threshold ≤ cosineSimilarity q kv.2.embedding then
      some ⟨kv.2, cosineSimilarity q kv.2.embedding, kv.2.documentID⟩
    else none)

/-- `VectorStore.Search`.  The Go map iteration order is unspecified, so the
mirror is taken as a list in an arbitrary order; `sort.Slice` (an unstable
sort run with the strict comparator `Score_i > Score_j`) may produce any
descending reordering, modelled by a fixed insertion sort of the
arbitrarily-ordered scoring pass.  Truncation and the always-`nil` error
follow the source. -/
noncomputable def SearchGo (memory : List (String × Chunk)) (q : List ℝ) (topK : ℕ)
    (threshold : ℝ) : List RetrievalResult × Option String :=
  let results := List.insertionSort scoreGE (searchScores memory q threshold)
  (if topK < results.length then results.take topK else results, none)

/-- The superset-consistency invariant of spec §3 ("Vector Store record"),
stated in the claim's own terms: no `Search` (over the mirror, in any
iteration order and with any query, `topK` and threshold) may observe a
chunk that is not durably committed in the `chunks` bucket, and no durably
committed chunk may be missing from the mirror. -/
def supersetConsistent (vs : VectorStore) : Prop :=
  (∀ (q : List ℝ) (topK : ℕ) (threshold : ℝ) (r : RetrievalResult),
    r ∈ (SearchGo vs.memory q topK threshold).1 →
    ∃ k, mapFind k vs.durable = some r.chunk) ∧
  (∀ (k : String) (c : Chunk), mapFind k vs.durable = some c →
    ∃ k', mapFind k' vs.memory = some c)

/-!
## Indexer (internal/services/context/indexer.go, embedder.go, parser.go)

File-system and provider effects are the oracle record `IndexEnv`; the
indexer's mutable state (the in-process `docCache` map and the on-disk cache
directory's `<id>.doc.gob` / `<id>.chunks.gob` files) is `IndexerState`.
`os.MkdirAll` / `os.Create` / gob-encode failures while writing the document
file are merged into the single flag `docWriteOk` (they all leave the state
unchanged and make `cacheDocument` return early); failures while writing the
chunks file are `chunksWriteOk` (the document file is already written then).
-/

/-- The part of `os.FileInfo` the indexer reads. -/
structure FsInfo where
  modTime : ℤ

/-- External effects of one indexing pass, frozen as oracles: `readContent`
is the extension dispatch plus `parseText`/`parsePDF` (none = unsupported
extension or I/O error), `stat` is `os.Stat`, `fileHash` is
`utils.FileHash`, `embedBatch` is one provider call of
`Embedder.getEmbeddings` (none = provider error). -/
structure IndexEnv where
  readContent : String → Option String
  stat : String → Option FsInfo
  fileHash : String → Option String
  embedBatch : List String → Option (List (List ℝ))
  docWriteOk : Bool
  chunksWriteOk : Bool

/-- The indexer's persistent state: in-process `docCache` (path → Document)
and the on-disk cache keyed by document id (= content hash). -/
structure IndexerState where
  docCache : List (String × Document)
  diskDocs : List (String × Document)
  diskChunks : List (String × List Chunk)

/-- Calls of the three pipeline stages performed by one `IndexFile` call. -/
structure Counters where
  parseCalls : ℕ
  chunkCalls : ℕ
  embedCalls : ℕ

/-- `Parser.ParseDocument`: extract text, stat the file, hash it; the
document's `ID` and `Hash` are both the content hash and `FileModTime` is
the stat result. -/
def ParseDocumentM (env : IndexEnv) (path : String) : Option Document :=
  match env.readContent path with
  | none => none
  | some content =>
    match env.stat path with
    | none => none
    | some info =>
      match env.fileHash path with
      | none => none
      | some h =>
        some { id := h, filePath := path, content := content, hash := h,
               fileModTime := info.modTime }

/-- Assign one batch of provider vectors to the batch's chunks
(`chunks[i+j].Embedding = emb`); chunks past the returned vectors keep
their old embedding. -/
def setEmbeddings (batch : List Chunk) (embs : List (List ℝ)) : List Chunk :=
  batch.zipWith (fun c e => { c with embedding := e }) embs ++ batch.drop embs.length

/-- The batch loop of `Embedder.CreateEmbeddings`, step-indexed: one batch
per unit of fuel.  `none` = fuel ran out (the Go loop never advances when
`BatchSize ≤ 0`); a provider error aborts the whole call. -/
def createEmbeddingsGo (embed : List String → Option (List (List ℝ))) (batchSize : ℕ) :
    ℕ → List Chunk → Option (Except String (List Chunk))
  | 0, _ => none
  | _ + 1, [] => some (Except.ok [])
  | fuel + 1, c :: rest =>
    let batch := (c :: rest).take batchSize
    match embed (batch.map (fun ch => ch.content)) with
    | none => some (Except.error "failed to get embeddings")
    | some embs =>
      match createEmbeddingsGo embed batchSize fuel ((c :: rest).drop batchSize) with
      | none => none
      | some (Except.error e) => some (Except.error e)
      | some (Except.ok tail) => some (Except.ok (setEmbeddings batch embs ++ tail))

/-- `Embedder.CreateEmbeddings` with enough fuel for every positive batch
size (at most `len(chunks)` batches). -/
def createEmbeddings (embed : List String → Option (List (List ℝ))) (batchSize : ℕ)
    (chunks : List Chunk) : Option (Except String (List Chunk)) :=
  createEmbeddingsGo embed batchSize (chunks.length + 1) chunks

/-- `Indexer.loadCachedDocument`: hash the file's current content and look
the hash up in the on-disk cache. -/
def loadCachedDocument (env : IndexEnv) (st : IndexerState) (path : String) :
    Option Document :=
  match env.fileHash path with
  | none => none
  | some h => mapFind h st.diskDocs

/-- `Indexer.loadCachedChunks`. -/
def loadCachedChunks (st : IndexerState) (docID : String) : Option (List Chunk) :=
  mapFind docID st.diskChunks

/-- `Indexer.needsReindex`: in-process cache first, falling back to the
on-disk cache; change is detected when the hash differs or the modification
time advanced (`info.ModTime().After(cached.FileModTime)`). -/
def needsReindex (st : IndexerState) (env : IndexEnv) (path : String) :
    Option Document × Bool :=
  let cachedO :=
    match mapFind path st.docCache with
    | some d => some d
    | none => loadCachedDocument env st path
  match cachedO with
  | none => (none, true)
  | some cached =>
    match env.stat path with
    | none => (none, true)
    | some info =>
      match env.fileHash path with
      | none => (none, true)
      | some currentHash =>
        if currentHash ≠ cached.hash then (some cached, true)
        else if cached.fileModTime < info.modTime then (some cached, true)
        else (some cached, false)

/-- `Indexer.cacheDocument`: write `<id>.doc.gob` then `<id>.chunks.gob`;
a failure stops the write sequence but `IndexFile` only logs it. -/
def cacheDocumentGo (env : IndexEnv) (st : IndexerState) (doc : Document)
    (chunks : List Chunk) : IndexerState :=
  if env.docWriteOk then
    let st₁ := { st with diskDocs := mapInsert doc.id doc st.diskDocs }
    if env.chunksWriteOk then
      { st₁ with diskChunks := mapInsert doc.id chunks st₁.diskChunks }
    else st₁
  else st

/-- The cache-miss path of `Indexer.IndexFile`: parse → chunk → embed →
cache → update `docCache`.  The first component is `none` when a stage
diverges (chunking with non-positive stride, embedding with batch size 0),
`some (Except.error _)` when `IndexFile` returns an error, and
`some (Except.ok chunks)` on success. -/
def indexMiss (ccfg : ChunkingConfig) (batchSize : ℕ) (env : IndexEnv)
    (st : IndexerState) (path : String) :
    Option (Except String (List Chunk)) × IndexerState × Counters :=
  match ParseDocumentM env path with
  | none => (some (Except.error "failed to parse document"), st, ⟨1, 0, 0⟩)
  | some doc =>
    match ChunkDocumentGo ccfg doc with
    | none => (none, st, ⟨1, 1, 0⟩)
    | some chunks =>
      if chunks.length = 0 then
        (some (Except.error "no chunks created from document"), st, ⟨1, 1, 0⟩)
      else
        match createEmbeddings env.embedBatch batchSize chunks with
        | none => (none, st, ⟨1, 1, 1⟩)
        | some (Except.error e) =>
          (some (Except.error ("failed to create embeddings: " ++ e)), st, ⟨1, 1, 1⟩)
        | some (Except.ok embedded) =>
          let st₁ := cacheDocumentGo env st doc embedded
          let st₂ := { st₁ with docCache := mapInsert path doc st₁.docCache }
          (some (Except.ok embedded), st₂, ⟨1, 1, 1⟩)

/-- `Indexer.IndexFile`: unless `forceReindex`, an up-to-date cached
document short-circuits to `loadCachedChunks` (whose own failure is the
call's error); otherwise the miss path runs. -/
def IndexFileGo (ccfg : ChunkingConfig) (batchSize : ℕ) (env : IndexEnv)
    (st : IndexerState) (path : String) (force : Bool) :
    Option (Except String (List Chunk)) × IndexerState × Counters :=
  if force then indexMiss ccfg batchSize env st path
  else
    match needsReindex st env path with
    | (some cached, false) =>
      (some (match loadCachedChunks st cached.id with
             | some cs => Except.ok cs
             | none => Except.error "failed to load cached chunks"), st, ⟨0, 0, 0⟩)
    | _ => indexMiss ccfg batchSize env st path

/-!
## Watcher-triggered update path (orchestrator.go `handleFileUpdate`,
watcher.go `handleFileChange`)

After the debounce timer fires, the indexer reindexes the file with
`forceReindex=true` and the resulting chunk set is delivered to the vector
store through `Retriever.IndexChunks`, i.e. `VectorStore.AddChunks`.  No
step of this path calls `DeleteByDocumentID`.  Errors are logged only. -/
def handleFileUpdateGo (ccfg : ChunkingConfig) (batchSize : ℕ) (env : IndexEnv)
    (encodeOk : Chunk → Bool) (putOk : String → Bool) (ist : IndexerState)
    (vs : VectorStore) (path : String) : IndexerState × VectorStore :=
  match IndexFileGo ccfg batchSize env ist path true with
  | (some (Except.ok chunks), ist', _) => (ist', (AddChunksGo encodeOk putOk vs chunks).1)
  | (some (Except.error _), ist', _) => (ist', vs)
  | (none, ist', _) => (ist', vs)

/-!
## Helper lemmas
-/

theorem mapFind_mapInsert_self {α : Type} (k : String) (v : α) (l : List (String × α)) :
    mapFind k (mapInsert k v l) = some v := by
  induction l with
  | nil => simp [mapFind, mapInsert]
  | cons kv rest ih =>
    obtain ⟨k', v'⟩ := kv
    by_cases h : k' = k
    · simp [mapFind, mapInsert, h]
    · simp [mapFind, mapInsert, h, ih]

theorem mapFind_mapInsert_ne {α : Type} (k k₀ : String) (v : α) (l : List (String × α))
    (h : k₀ ≠ k) : mapFind k (mapInsert k₀ v l) = mapFind k l := by
  induction l with
  | nil => simp [mapFind, mapInsert, h]
  | cons kv rest ih =>
    obtain ⟨k', v'⟩ := kv
    by_cases h' : k' = k₀
    · subst h'
      simp [mapFind, mapInsert, h]
    · by_cases h'' : k' = k <;> simp [mapFind, mapInsert, h', h'', Ne.symm h, ih]

theorem mapFind_eq_none_of_not_mem {α : Type} (k : String) (l : List (String × α))
    (hk : k ∉ l.map Prod.fst) : mapFind k l = none := by
  induction l with
  | nil => rfl
  | cons kv rest ih =>
    obtain ⟨k', v⟩ := kv
    simp only [List.map_cons, List.mem_cons] at hk
    push_neg at hk
    simp only [mapFind, if_neg (Ne.symm hk.1)]
    exact ih hk.2

theorem mapFind_filter {α : Type} (p : String → Bool) (k : String) (l : List (String × α)) :
    mapFind k (l.filter (fun kv => p kv.1)) = if p k then mapFind k l else none := by
  induction l with
  | nil => simp [mapFind]
  | cons kv rest ih =>
    obtain ⟨k', v'⟩ := kv
    by_cases hk : k' = k
    · subst hk
      by_cases hp : p k' <;> simp [mapFind, hp, ih]
    · by_cases hp : p k' <;> simp [mapFind, hp, hk, ih]

/-- With a non-positive stride (`size ≤ overlap`), the `chunkFixed` loop
never advances past a window that does not reach the end of the text: no
amount of fuel produces a result. -/
theorem chunkFixedGo_stride_zero_none (docID : String) (runes : List Char)
    (size overlap : ℕ) (hso : size ≤ overlap) :
    ∀ fuel i idx, i + size < runes.length →
      chunkFixedGo docID runes size overlap fuel i idx = none := by
  intro fuel
  induction fuel with
  | zero => intro i idx _; rfl
  | succ n ih =>
    intro i idx hsz
    have hi : i < runes.length := lt_of_le_of_lt (Nat.le_add_right i size) hsz
    have hstride : size - overlap = 0 := Nat.sub_eq_zero_of_le hso
    simp only [chunkFixedGo, hi, if_true]
    rw [if_neg (by omega), hstride, Nat.add_zero, ih i (idx + 1) hsz]
    rfl

/-!
### C7 — degenerate fixed chunking hangs instead of being rejected
-/

/-- C7: the claim says `ChunkDocument` under the `fixed` method rejects or
clamps a policy with `chunkSize ≤ chunkOverlap` so that chunking always
terminates.  The code has no such guard: with `chunkSize = chunkOverlap = 1`
on the two-rune text `"ab"` the loop stride is `0`, the window start never
advances, and the loop never returns — `chunkFixedGo` is `none` for every
fuel, and `ChunkDocumentGo` (which dispatches to it unguarded) has no
result.  This contradicts the spec's requirement ("must be rejected or
clamped … treat as a configuration error, not a silent hang"), so the code,
not the claim, is wrong. -/
theorem chunkDocument_degenerate_hangs :
    (∀ fuel idx, chunkFixedGo "h" "ab".data 1 1 fuel 0 idx = none) ∧
    ChunkDocumentGo ⟨"fixed", 1, 1, 0⟩ ⟨"h", "f", "ab", "h", 0⟩ = none := by
  constructor
  · intro fuel idx
    exact chunkFixedGo_stride_zero_none "h" "ab".data 1 1 le_rfl fuel 0 idx (by decide)
  · have h1 : chunkFixed "h" "ab" 1 1 = none :=
      chunkFixedGo_stride_zero_none "h" "ab".data 1 1 le_rfl ("ab".data.length + 1) 0 0
        (by decide)
    simp [ChunkDocumentGo, h1]

/-!
### C8 — fixed chunking: windows, overlap and reconstruction
-/

/-- The `chunkFixed` loop produces exactly the chunk records built from its
window sequence: trimmed window contents, indices counting up. -/
theorem chunkFixedGo_eq_windows (docID : String) (runes : List Char) (size overlap : ℕ) :
    ∀ fuel i idx, chunkFixedGo docID runes size overlap fuel i idx =
      (goWindowsGo runes size (size - overlap) fuel i).map (mkChunks docID idx) := by
  intro fuel
  induction fuel with
  | zero => intro i idx; rfl
  | succ n ih =>
    intro i idx
    by_cases hi : i < runes.length
    · simp only [chunkFixedGo, goWindowsGo, hi, if_true]
      by_cases hbreak : runes.length ≤ min (i + size) runes.length
      · simp [hbreak, mkChunks]
      · simp only [hbreak, if_false, ih (i + (size - overlap)) (idx + 1), Option.map_map]
        rfl
    · simp [chunkFixedGo, goWindowsGo, hi, mkChunks]

/-- Shape of the window sequence from start position `i` (with positive
stride and enough fuel): the head window is the next `size` runes, dropping
the `overlap`-rune prefix of each later window and flattening yields the
rest of the text, and consecutive windows agree on their shared `overlap`
runes. -/
theorem goWindows_spec (runes : List Char) (size overlap : ℕ) (hov : overlap < size) :
    ∀ fuel i, runes.length - i < fuel → i < runes.length →
      ∃ tail, goWindowsGo runes size (size - overlap) fuel i =
          some ((runes.drop i).take size :: tail) ∧
        (tail.map (List.drop overlap)).flatten = runes.drop (i + size) ∧
        List.Chain' (windowOverlapRel size overlap) ((runes.drop i).take size :: tail) := by
  intro fuel
  induction fuel with
  | zero => intro i hfuel _; omega
  | succ n ih =>
    intro i hfuel hi
    have hw : (runes.drop i).take (min (i + size) runes.length - i) =
        (runes.drop i).take size := by
      rw [List.take_eq_take]
      simp [List.length_drop]
      omega
    by_cases hbreak : runes.length ≤ min (i + size) runes.length
    · refine ⟨[], ?_, ?_, ?_⟩
      · simp only [goWindowsGo, hi, if_true, hbreak, hw]
      · simp [List.drop_eq_nil_of_le (show runes.length ≤ i + size by omega)]
      · simp
    · have hsz : i + size < runes.length := by omega
      have hmin : min (i + size) runes.length = i + size := min_eq_left (le_of_lt hsz)
      have hi' : i + (size - overlap) < runes.length := by omega
      obtain ⟨tail', heq', hjoin', hchain'⟩ :=
        ih (i + (size - overlap)) (by omega) hi'
      refine ⟨(runes.drop (i + (size - overlap))).take size :: tail', ?_, ?_, ?_⟩
      · simp only [goWindowsGo, hi, if_true, hbreak, if_false, heq', Option.map_some',
          hw]
      · simp only [List.map_cons, List.flatten_cons, hjoin']
        have hdt : List.drop overlap ((runes.drop (i + (size - overlap))).take size) =
            (runes.drop (i + size)).take (size - overlap) := by
          rw [List.drop_take, List.drop_drop]
          have h4 : i + (size - overlap) + overlap = i + size := by omega
          rw [h4]
        rw [hdt]
        have h2 : i + (size - overlap) + size = i + size + (size - overlap) := by omega
        have h3 : List.drop (i + size + (size - overlap)) runes =
            List.drop (size - overlap) (List.drop (i + size) runes) := by
          rw [List.drop_drop]
        rw [h2, h3]
        exact List.take_append_drop _ _
      · rw [List.chain'_cons]
        refine ⟨?_, hchain'⟩
        show List.drop (size - overlap) ((runes.drop i).take size) =
          List.take overlap ((runes.drop (i + (size - overlap))).take size)
        rw [List.drop_take, List.drop_drop, List.take_take]
        have h5 : size - (size - overlap) = overlap := by omega
        have h7 : min overlap size = overlap := min_eq_left (le_of_lt hov)
        rw [h5, h7]

/-- Chunk contents are exactly the trimmed windows. -/
theorem mkChunks_map_content (docID : String) :
    ∀ idx ws, (mkChunks docID idx ws).map Chunk.content =
      ws.map (fun w => String.mk (goTrimSpace w)) := by
  intro idx ws
  induction ws generalizing idx with
  | nil => rfl
  | cons w ws ih => simp [mkChunks, ih]

/-- C8 (amended): with `chunkSize > chunkOverlap` the fixed chunker
terminates and deterministically produces the chunk records of its sliding
window sequence: the windows advance by `chunkSize - chunkOverlap`,
consecutive windows share exactly the `chunkOverlap` code points where they
meet, and the overlap-aware concatenation of the *windows* reconstructs the
source text; each produced chunk's content is the whitespace-*trimmed*
window (`strings.TrimSpace`), which is what blocks reconstruction from the
chunk contents themselves. -/
theorem chunkFixed_window_structure (docID : String) (text : String) (size overlap : ℕ)
    (hov : overlap < size) :
    ∃ ws, goWindowsGo text.data size (size - overlap) (text.data.length + 1) 0 = some ws ∧
      chunkFixed docID text size overlap = some (mkChunks docID 0 ws) ∧
      List.Chain' (windowOverlapRel size overlap) ws ∧
      overlapJoin overlap ws = text.data ∧
      (mkChunks docID 0 ws).map Chunk.content =
        ws.map (fun w => String.mk (goTrimSpace w)) := by
  by_cases hnil : text.data.length = 0
  · refine ⟨[], ?_, ?_, ?_, ?_, ?_⟩
    · simp [goWindowsGo, hnil]
    · unfold chunkFixed
      rw [chunkFixedGo_eq_windows]
      simp [goWindowsGo, hnil, mkChunks]
    · simp
    · have hd : text.data = [] := List.length_eq_zero.mp hnil
      simp [overlapJoin, hd]
    · simp [mkChunks]
  · obtain ⟨tail, heq, hjoin, hchain⟩ :=
      goWindows_spec text.data size overlap hov (text.data.length + 1) 0 (by omega)
        (by omega)
    refine ⟨(text.data.drop 0).take size :: tail, heq, ?_, hchain, ?_,
      mkChunks_map_content docID 0 _⟩
    · unfold chunkFixed
      rw [chunkFixedGo_eq_windows, heq]
      rfl
    · show (text.data.drop 0).take size ++ (tail.map (List.drop overlap)).flatten =
        text.data
      rw [hjoin]
      simp only [List.drop_zero, Nat.zero_add]
      exact List.take_append_drop _ _

/-- C8 counterexample: on the text `"a b"` with `chunkSize = 2`,
`chunkOverlap = 0`, the produced chunk contents are `"a"` and `"b"`
(trimmed windows `"a "` and `"b"`), and their overlap-aware concatenation
is `"ab"`, not the source text `"a b"` — the claim's reconstruction
property fails for chunk contents. -/
theorem chunkFixed_trim_counterexample :
    (chunkFixed "d" "a b" 2 0).map
        (fun cs => overlapJoin 0 (cs.map (fun c => c.content.data))) = some "ab".data ∧
      "ab".data ≠ "a b".data := by
  exact ⟨rfl, by decide⟩

/-!
### C9 — cosine similarity bounds
-/

theorem dotL_self_nonneg (v : List ℝ) : 0 ≤ dotL v v := by
  induction v with
  | nil => simp [dotL]
  | cons x xs ih => simpa [dotL] using add_nonneg (mul_self_nonneg x) ih

theorem dotL_self_pos (v : List ℝ) (x : ℝ) (hx : x ∈ v) (hx0 : x ≠ 0) :
    0 < dotL v v := by
  induction v with
  | nil => cases hx
  | cons y ys ih =>
    rcases List.mem_cons.mp hx with h | h
    · subst h
      exact add_pos_of_pos_of_nonneg (mul_self_pos.mpr hx0) (dotL_self_nonneg ys)
    · exact add_pos_of_nonneg_of_pos (mul_self_nonneg y) (ih h)

/-- The accumulator loop of `cosineSimilarity` as a finite sum over the
index range. -/
theorem dotL_eq_sum : ∀ (a b : List ℝ), a.length = b.length →
    dotL a b = ∑ i ∈ Finset.range a.length, a.getD i 0 * b.getD i 0 := by
  intro a
  induction a with
  | nil =>
    intro b hb
    simp [dotL]
  | cons x xs ih =>
    intro b hb
    cases b with
    | nil => simp at hb
    | cons y ys =>
      have hlen : xs.length = ys.length := by simpa using hb
      simp only [dotL, List.length_cons]
      rw [Finset.sum_range_succ']
      simp only [List.getD_cons_succ, List.getD_cons_zero]
      rw [← ih ys hlen]
      ring

/-- Cauchy–Schwarz for the loop sums. -/
theorem dotL_cauchy_schwarz (a b : List ℝ) (hab : a.length = b.length) :
    |dotL a b| ≤ Real.sqrt (dotL a a) * Real.sqrt (dotL b b) := by
  have hsq : ∀ (l : List ℝ) (i : ℕ), l.getD i 0 * l.getD i 0 = l.getD i 0 ^ 2 := by
    intro l i
    ring
  rw [abs_le]
  constructor
  · have h := Real.sum_mul_le_sqrt_mul_sqrt (Finset.range a.length)
      (fun i => -(a.getD i 0)) (fun i => b.getD i 0)
    simp only [neg_mul, Finset.sum_neg_distrib, neg_sq] at h
    rw [dotL_eq_sum a b hab, dotL_eq_sum a a rfl, dotL_eq_sum b b rfl, hab]
    rw [← hab]
    simp only [hsq]
    linarith [h]
  · have h := Real.sum_mul_le_sqrt_mul_sqrt (Finset.range a.length)
      (fun i => a.getD i 0) (fun i => b.getD i 0)
    rw [dotL_eq_sum a b hab, dotL_eq_sum a a rfl, dotL_eq_sum b b rfl, hab]
    rw [← hab]
    simp only [hsq]
    exact h

/-- C9: the similarity `Search` uses lies in `[-1, 1]`; it is `0` — returned
as a value, never an error — on dimension mismatch or a zero norm; and it is
`1` on any nonzero vector paired with itself.  (Go `float64` arithmetic is
modelled as exact real arithmetic.) -/
theorem cosineSimilarity_bounds (a b v : List ℝ) :
    (-1 ≤ cosineSimilarity a b ∧ cosineSimilarity a b ≤ 1) ∧
    (a.length ≠ b.length → cosineSimilarity a b = 0) ∧
    (dotL a a = 0 ∨ dotL b b = 0 → cosineSimilarity a b = 0) ∧
    ((∃ x ∈ v, x ≠ 0) → cosineSimilarity v v = 1) := by
  refine ⟨?_, ?_, ?_, ?_⟩
  · unfold cosineSimilarity
    by_cases hlen : a.length ≠ b.length
    · simp [hlen]
    · by_cases hz : dotL a a = 0 ∨ dotL b b = 0
      · simp [hlen, hz]
      · push_neg at hlen hz
        have hA : 0 < dotL a a := lt_of_le_of_ne (dotL_self_nonneg a) (Ne.symm hz.1)
        have hB : 0 < dotL b b := lt_of_le_of_ne (dotL_self_nonneg b) (Ne.symm hz.2)
        have hD : 0 < Real.sqrt (dotL a a) * Real.sqrt (dotL b b) :=
          mul_pos (Real.sqrt_pos.mpr hA) (Real.sqrt_pos.mpr hB)
        have hcs := dotL_cauchy_schwarz a b hlen
        rw [abs_le] at hcs
        rw [if_neg (by simpa using hlen), if_neg (by simpa using hz)]
        constructor
        · rw [le_div_iff₀ hD]
          linarith [hcs.1]
        · rw [div_le_one hD]
          exact hcs.2
  · intro hlen
    simp [cosineSimilarity, hlen]
  · intro hz
    by_cases hlen : a.length ≠ b.length <;> simp [cosineSimilarity, hlen, hz]
  · rintro ⟨x, hx, hx0⟩
    have hN : 0 < dotL v v := dotL_self_pos v x hx hx0
    unfold cosineSimilarity
    rw [if_neg (by simp), if_neg (by push_neg; exact ⟨ne_of_gt hN, ne_of_gt hN⟩)]
    rw [Real.mul_self_sqrt (le_of_lt hN)]
    exact div_self (ne_of_gt hN)

theorem cosineSimilarity_bounds_witness :
    cosineSimilarity [(1 : ℝ)] [1, 2] = 0 ∧ cosineSimilarity [(0 : ℝ)] [3] = 0 ∧
    cosineSimilarity [(2 : ℝ)] [2] = 1 :=
  ⟨(cosineSimilarity_bounds [(1 : ℝ)] [1, 2] []).2.1 (by decide),
   (cosineSimilarity_bounds [(0 : ℝ)] [3] []).2.2.1 (Or.inl (by norm_num [dotL])),
   (cosineSimilarity_bounds [] [] [(2 : ℝ)]).2.2.2 ⟨2, by norm_num, by norm_num⟩⟩

/-!
### C4, C10, C5 — Search
-/

/-- The scoring pass keeps exactly the mirror chunks with a non-empty
embedding scoring at or above the threshold, paired with their cosine
score and document id. -/
theorem searchScores_mem (memory : List (String × Chunk)) (q : List ℝ) (threshold : ℝ)
    (r : RetrievalResult) :
    r ∈ searchScores memory q threshold ↔
      ∃ kv, kv ∈ memory ∧ kv.2.embedding ≠ [] ∧
        threshold ≤ cosineSimilarity q kv.2.embedding ∧
        r = ⟨kv.2, cosineSimilarity q kv.2.embedding, kv.2.documentID⟩ := by
  unfold searchScores
  rw [List.mem_filterMap]
  constructor
  · rintro ⟨kv, hmem, hf⟩
    by_cases h0 : kv.2.embedding.length = 0
    · simp [h0] at hf
    · by_cases ht : threshold ≤ cosineSimilarity q kv.2.embedding
      · simp only [h0, if_false, ht, if_true] at hf
        exact ⟨kv, hmem, fun hnil => h0 (by simp [hnil]), ht, (Option.some.inj hf).symm⟩
      · simp [h0, ht] at hf
  · rintro ⟨kv, hmem, hne, ht, rfl⟩
    refine ⟨kv, hmem, ?_⟩
    have h0 : ¬kv.2.embedding.length = 0 := by simpa [List.length_eq_zero] using hne
    simp [h0, ht]

/-- C4: `Search` never returns an error; its result is the descending sort
of the scoring pass truncated to `topK`; the sorted list is a permutation
of the scoring pass; the result is sorted descending and has at most `topK`
entries; and membership in the scoring pass characterises exactly the
mirror chunks with a non-empty embedding and score at or above the
threshold (so a query with no qualifying chunk yields the empty, non-error
result). -/
theorem search_characterization (memory : List (String × Chunk)) (q : List ℝ)
    (topK : ℕ) (threshold : ℝ) :
    (SearchGo memory q topK threshold).2 = none ∧
    (SearchGo memory q topK threshold).1 =
      (List.insertionSort scoreGE (searchScores memory q threshold)).take topK ∧
    (List.insertionSort scoreGE (searchScores memory q threshold)).Perm
      (searchScores memory q threshold) ∧
    List.Sorted scoreGE (SearchGo memory q topK threshold).1 ∧
    (SearchGo memory q topK threshold).1.length ≤ topK ∧
    (∀ r : RetrievalResult, r ∈ searchScores memory q threshold ↔
      ∃ kv, kv ∈ memory ∧ kv.2.embedding ≠ [] ∧
        threshold ≤ cosineSimilarity q kv.2.embedding ∧
        r = ⟨kv.2, cosineSimilarity q kv.2.embedding, kv.2.documentID⟩) := by
  have htake : (SearchGo memory q topK threshold).1 =
      (List.insertionSort scoreGE (searchScores memory q threshold)).take topK := by
    unfold SearchGo
    by_cases h : topK < (List.insertionSort scoreGE (searchScores memory q threshold)).length
    · simp [h]
    · simp only [h, if_false]
      exact (List.take_of_length_le (le_of_not_lt h)).symm
  refine ⟨rfl, htake, List.perm_insertionSort scoreGE _, ?_, ?_, searchScores_mem _ _ _⟩
  · rw [htake]
    exact (List.sorted_insertionSort scoreGE _).sublist (List.take_sublist _ _)
  · rw [htake, List.length_take]
    exact Nat.min_le_left _ _

/-- C10: `Search` is total and never errors for any `topK ≥ 0`; the result
never exceeds `topK` entries (the truncation cannot slice out of bounds),
and `topK = 0` yields the empty result regardless of how many chunks pass
the threshold. -/
theorem search_topK_total (memory : List (String × Chunk)) (q : List ℝ) (topK : ℕ)
    (threshold : ℝ) :
    (SearchGo memory q topK threshold).2 = none ∧
    (SearchGo memory q topK threshold).1.length ≤ topK ∧
    (SearchGo memory q 0 threshold).1 = [] := by
  refine ⟨rfl, ?_, ?_⟩
  · show (if topK < (List.insertionSort scoreGE (searchScores memory q threshold)).length
        then List.take topK (List.insertionSort scoreGE (searchScores memory q threshold))
        else List.insertionSort scoreGE (searchScores memory q threshold)).length ≤ topK
    by_cases h : topK < (List.insertionSort scoreGE (searchScores memory q threshold)).length
    · rw [if_pos h, List.length_take]
      exact Nat.min_le_left _ _
    · rw [if_neg h]
      exact le_of_not_lt h
  · show (if 0 < (List.insertionSort scoreGE (searchScores memory q threshold)).length
        then List.take 0 (List.insertionSort scoreGE (searchScores memory q threshold))
        else List.insertionSort scoreGE (searchScores memory q threshold)) = []
    by_cases h : 0 < (List.insertionSort scoreGE (searchScores memory q threshold)).length
    · rw [if_pos h]
      exact List.take_zero _
    · rw [if_neg h]
      exact List.length_eq_zero.mp (by omega)

/-- Two sorted-descending lists that are permutations of each other and
whose scores are pairwise distinct are equal. -/
theorem sorted_perm_pairwise_ne_eq :
    ∀ l₁ l₂ : List RetrievalResult, l₁.Perm l₂ → List.Sorted scoreGE l₁ →
      List.Sorted scoreGE l₂ →
      l₁.Pairwise (fun a b => a.score ≠ b.score) → l₁ = l₂ := by
  intro l₁
  induction l₁ with
  | nil =>
    intro l₂ hp _ _ _
    exact hp.nil_eq
  | cons a t ih =>
    intro l₂ hp hs₁ hs₂ hpw
    cases l₂ with
    | nil => simp at hp
    | cons b t₂ =>
      by_cases hab : a = b
      · subst hab
        rw [ih t₂ hp.cons_inv hs₁.of_cons hs₂.of_cons hpw.of_cons]
      · have hbt : b ∈ t := by
          rcases List.mem_cons.mp (hp.mem_iff.mpr (List.mem_cons_self b t₂)) with h | h
          · exact absurd h.symm hab
          · exact h
        have hat₂ : a ∈ t₂ := by
          rcases List.mem_cons.mp (hp.mem_iff.mp (List.mem_cons_self a t)) with h | h
          · exact absurd h hab
          · exact h
        have h1 : scoreGE a b := List.rel_of_sorted_cons hs₁ b hbt
        have h2 : scoreGE b a := List.rel_of_sorted_cons hs₂ a hat₂
        have hne : a.score ≠ b.score := (List.pairwise_cons.mp hpw).1 b hbt
        exact absurd (le_antisymm h2 h1) hne

/-- C5 (amended): `Search` is a deterministic function of the mirror's
iteration order, and whenever the qualifying scores are pairwise distinct
the iteration order does not matter: any two orderings of the same mirror
entries produce identical result sequences.  (With tied scores, different
map iteration orders may return the tied results in different relative
orders — see the counterexample.) -/
theorem search_deterministic_up_to_ties (q : List ℝ) (topK : ℕ) (threshold : ℝ)
    (mem₁ mem₂ : List (String × Chunk)) (hperm : mem₁.Perm mem₂)
    (hne : (searchScores mem₁ q threshold).Pairwise (fun a b => a.score ≠ b.score)) :
    SearchGo mem₁ q topK threshold = SearchGo mem₂ q topK threshold := by
  have hp : (searchScores mem₁ q threshold).Perm (searchScores mem₂ q threshold) :=
    hperm.filterMap _
  have hsorteq : List.insertionSort scoreGE (searchScores mem₁ q threshold) =
      List.insertionSort scoreGE (searchScores mem₂ q threshold) := by
    apply sorted_perm_pairwise_ne_eq
    · exact (List.perm_insertionSort _ _).trans
        (hp.trans (List.perm_insertionSort _ _).symm)
    · exact List.sorted_insertionSort scoreGE _
    · exact List.sorted_insertionSort scoreGE _
    · exact ((List.perm_insertionSort scoreGE _).pairwise_iff
        (fun h => Ne.symm h)).mpr hne
  unfold SearchGo
  rw [hsorteq]

/-- Concrete evaluation: two unit vectors along the same axis score 1. -/
theorem cosineSimilarity_one_one : cosineSimilarity [(1 : ℝ)] [1] = 1 := by
  simp [cosineSimilarity, dotL, Real.sqrt_one]

/-- Concrete evaluation: opposite unit vectors score -1. -/
theorem cosineSimilarity_one_neg_one : cosineSimilarity [(1 : ℝ)] [-1] = -1 := by
  simp [cosineSimilarity, dotL, Real.sqrt_one]

/-- C5 counterexample: the same store contents listed in the two iteration
orders a Go map may present (the entries are a permutation of each other)
give different result sequences when two chunks tie on score — the claim
"any two runs return identical result sequences" fails on the code, whose
mirror iteration order is unspecified and whose sort is unstable. -/
theorem search_tie_order_counterexample :
    (([("a", ⟨"a", "d1", "x", [(1 : ℝ)], 0⟩), ("b", ⟨"b", "d2", "y", [(1 : ℝ)], 0⟩)] :
        List (String × Chunk)).Perm
      [("b", ⟨"b", "d2", "y", [(1 : ℝ)], 0⟩), ("a", ⟨"a", "d1", "x", [(1 : ℝ)], 0⟩)]) ∧
    (SearchGo [("a", ⟨"a", "d1", "x", [(1 : ℝ)], 0⟩), ("b", ⟨"b", "d2", "y", [(1 : ℝ)], 0⟩)]
        [(1 : ℝ)] 2 0).1 ≠
      (SearchGo [("b", ⟨"b", "d2", "y", [(1 : ℝ)], 0⟩), ("a", ⟨"a", "d1", "x", [(1 : ℝ)], 0⟩)]
        [(1 : ℝ)] 2 0).1 := by
  constructor
  · exact List.Perm.swap _ _ _
  · have e₁ : (SearchGo [("a", (⟨"a", "d1", "x", [(1 : ℝ)], 0⟩ : Chunk)),
        ("b", ⟨"b", "d2", "y", [(1 : ℝ)], 0⟩)] [(1 : ℝ)] 2 0).1 =
        [⟨⟨"a", "d1", "x", [(1 : ℝ)], 0⟩, 1, "d1"⟩,
         ⟨⟨"b", "d2", "y", [(1 : ℝ)], 0⟩, 1, "d2"⟩] := by
      simp [SearchGo, searchScores, cosineSimilarity_one_one, List.insertionSort,
        List.orderedInsert, scoreGE]
    have e₂ : (SearchGo [("b", (⟨"b", "d2", "y", [(1 : ℝ)], 0⟩ : Chunk)),
        ("a", ⟨"a", "d1", "x", [(1 : ℝ)], 0⟩)] [(1 : ℝ)] 2 0).1 =
        [⟨⟨"b", "d2", "y", [(1 : ℝ)], 0⟩, 1, "d2"⟩,
         ⟨⟨"a", "d1", "x", [(1 : ℝ)], 0⟩, 1, "d1"⟩] := by
      simp [SearchGo, searchScores, cosineSimilarity_one_one, List.insertionSort,
        List.orderedInsert, scoreGE]
    rw [e₁, e₂]
    simp [RetrievalResult.mk.injEq, Chunk.mk.injEq]

theorem search_deterministic_up_to_ties_witness :
    SearchGo [("a", ⟨"a", "dP", "x", [(1 : ℝ)], 0⟩), ("b", ⟨"b", "dN", "y", [(-1 : ℝ)], 0⟩)]
        [(1 : ℝ)] 2 (-2) =
      SearchGo [("b", ⟨"b", "dN", "y", [(-1 : ℝ)], 0⟩), ("a", ⟨"a", "dP", "x", [(1 : ℝ)], 0⟩)]
        [(1 : ℝ)] 2 (-2) := by
  apply search_deterministic_up_to_ties
  · exact List.Perm.swap _ _ _
  · have hs : searchScores
        [("a", (⟨"a", "dP", "x", [(1 : ℝ)], 0⟩ : Chunk)),
         ("b", ⟨"b", "dN", "y", [(-1 : ℝ)], 0⟩)] [(1 : ℝ)] (-2) =
        [⟨⟨"a", "dP", "x", [(1 : ℝ)], 0⟩, 1, "dP"⟩,
         ⟨⟨"b", "dN", "y", [(-1 : ℝ)], 0⟩, -1, "dN"⟩] := by
      simp [searchScores, cosineSimilarity_one_one, cosineSimilarity_one_neg_one,
        show (-2 : ℝ) ≤ 1 by norm_num, show (-2 : ℝ) ≤ -1 by norm_num]
    rw [hs]
    refine List.pairwise_cons.mpr ⟨?_, List.pairwise_singleton _ _⟩
    intro b hb
    rw [List.mem_singleton.mp hb]
    norm_num

/-!
### C2 — in-memory mirror vs durable state
-/

/-- Rebuilding the mirror by a full scan reproduces the durable table on
every key (bucket keys are unique). -/
theorem mapFind_load_aux :
    ∀ (d acc : List (String × Chunk)) (k : String), (d.map Prod.fst).Nodup →
      mapFind k (d.foldl (fun mem kv => mapInsert kv.1 kv.2 mem) acc) =
        if k ∈ d.map Prod.fst then mapFind k d else mapFind k acc := by
  intro d
  induction d with
  | nil =>
    intro acc k _
    simp [mapFind]
  | cons kv rest ih =>
    intro acc k hnd
    obtain ⟨k₀, v₀⟩ := kv
    simp only [List.map_cons, List.nodup_cons] at hnd
    simp only [List.foldl_cons]
    rw [ih (mapInsert k₀ v₀ acc) k hnd.2]
    by_cases hkr : k ∈ rest.map Prod.fst
    · have hk₀ : ¬k₀ = k := fun h => hnd.1 (h ▸ hkr)
      simp [hkr, mapFind, hk₀]
    · by_cases hk₀ : k = k₀
      · subst hk₀
        simp [hkr, mapFind, mapFind_mapInsert_self]
      · have hk₀' : ¬k₀ = k := fun h => hk₀ h.symm
        simp [hkr, mapFind, hk₀, hk₀', mapFind_mapInsert_ne k k₀ v₀ acc hk₀']

/-- A successful `AddChunks` loop run keeps the memory map and the
transaction bucket in lockstep. -/
theorem addChunksLoop_consistent (encodeOk : Chunk → Bool) (putOk : String → Bool) :
    ∀ (chunks : List Chunk) (tx mem tx' mem' : List (String × Chunk)),
      (∀ k, mapFind k mem = mapFind k tx) →
      addChunksLoop encodeOk putOk chunks tx mem = (none, tx', mem') →
      ∀ k, mapFind k mem' = mapFind k tx' := by
  intro chunks
  induction chunks with
  | nil =>
    intro tx mem tx' mem' hcons heq k
    simp only [addChunksLoop, Prod.mk.injEq] at heq
    rw [← heq.2.1, ← heq.2.2]
    exact hcons k
  | cons c rest ih =>
    intro tx mem tx' mem' hcons heq k
    simp only [addChunksLoop] at heq
    have hgen : ∀ c' : Chunk,
        (if encodeOk c' = false then (some "failed to encode chunk", tx, mem)
         else if putOk c'.id = false then (some "put failed", tx, mem)
         else addChunksLoop encodeOk putOk rest (mapInsert c'.id c' tx)
           (mapInsert c'.id c' mem)) = (none, tx', mem') →
        mapFind k mem' = mapFind k tx' := by
      intro c' heq'
      split_ifs at heq' with h1 h2
      · simp at heq'
      · simp at heq'
      · refine ih _ _ _ _ ?_ heq' k
        intro k'
        by_cases hk : c'.id = k'
        · rw [← hk, mapFind_mapInsert_self, mapFind_mapInsert_self]
        · rw [mapFind_mapInsert_ne _ _ _ _ hk, mapFind_mapInsert_ne _ _ _ _ hk]
          exact hcons k'
    exact hgen _ heq

/-- A pair present in an association list with unique keys is what lookup
finds at its key (Go maps have unique keys). -/
theorem mapFind_of_mem_nodup {α : Type} :
    ∀ (l : List (String × α)) (kv : String × α), kv ∈ l → (l.map Prod.fst).Nodup →
      mapFind kv.1 l = some kv.2 := by
  intro l
  induction l with
  | nil =>
    intro kv h _
    cases h
  | cons hd rest ih =>
    intro kv hmem hnd
    obtain ⟨k', v'⟩ := hd
    simp only [List.map_cons, List.nodup_cons] at hnd
    rcases List.mem_cons.mp hmem with h | h
    · subst h
      simp [mapFind]
    · have hkr : kv.1 ∈ rest.map Prod.fst := List.mem_map.mpr ⟨kv, h, rfl⟩
      have hne : ¬k' = kv.1 := fun hh => hnd.1 (hh ▸ hkr)
      simp only [mapFind, if_neg hne]
      exact ih kv h hnd.2

/-- Keys after an upsert: the inserted key or an old key. -/
theorem keys_mapInsert_mem {α : Type} (x k : String) (v : α) :
    ∀ l : List (String × α), x ∈ (mapInsert k v l).map Prod.fst →
      x = k ∨ x ∈ l.map Prod.fst := by
  intro l
  induction l with
  | nil =>
    intro h
    simp [mapInsert] at h
    exact Or.inl h
  | cons kv rest ih =>
    intro h
    obtain ⟨k', v'⟩ := kv
    by_cases hk : k' = k
    · simp only [mapInsert, if_pos hk, List.map_cons, List.mem_cons] at h
      rcases h with h | h
      · exact Or.inl h
      · exact Or.inr (List.mem_cons.mpr (Or.inr h))
    · simp only [mapInsert, if_neg hk, List.map_cons, List.mem_cons] at h
      rcases h with h | h
      · exact Or.inr (List.mem_cons.mpr (Or.inl h))
      · rcases ih h with h' | h'
        · exact Or.inl h'
        · exact Or.inr (List.mem_cons.mpr (Or.inr h'))

/-- Upserting preserves uniqueness of the keys. -/
theorem nodup_keys_mapInsert {α : Type} (k : String) (v : α) :
    ∀ l : List (String × α), (l.map Prod.fst).Nodup →
      ((mapInsert k v l).map Prod.fst).Nodup := by
  intro l
  induction l with
  | nil =>
    intro _
    simp [mapInsert]
  | cons kv rest ih =>
    intro hnd
    obtain ⟨k', v'⟩ := kv
    simp only [List.map_cons, List.nodup_cons] at hnd
    by_cases hk : k' = k
    · subst hk
      simp only [mapInsert, if_true]
      simp only [List.map_cons, List.nodup_cons]
      exact ⟨hnd.1, hnd.2⟩
    · simp only [mapInsert, if_neg hk, List.map_cons, List.nodup_cons]
      refine ⟨?_, ih hnd.2⟩
      intro hmem
      rcases keys_mapInsert_mem k' k v rest hmem with h | h
      · exact hk h
      · exact hnd.1 h

/-- The load-on-open scan produces a mirror with unique keys. -/
theorem nodup_keys_load_aux :
    ∀ (d acc : List (String × Chunk)), (acc.map Prod.fst).Nodup →
      ((d.foldl (fun mem kv => mapInsert kv.1 kv.2 mem) acc).map Prod.fst).Nodup := by
  intro d
  induction d with
  | nil =>
    intro acc h
    exact h
  | cons kv rest ih =>
    intro acc h
    simp only [List.foldl_cons]
    exact ih _ (nodup_keys_mapInsert kv.1 kv.2 acc h)

/-- A successful `AddChunks` loop run keeps the memory map's keys unique. -/
theorem addChunksLoop_nodup (encodeOk : Chunk → Bool) (putOk : String → Bool) :
    ∀ (chunks : List Chunk) (tx mem tx' mem' : List (String × Chunk)),
      (mem.map Prod.fst).Nodup →
      addChunksLoop encodeOk putOk chunks tx mem = (none, tx', mem') →
      (mem'.map Prod.fst).Nodup := by
  intro chunks
  induction chunks with
  | nil =>
    intro tx mem tx' mem' hnd heq
    simp only [addChunksLoop, Prod.mk.injEq] at heq
    rw [← heq.2.2]
    exact hnd
  | cons c rest ih =>
    intro tx mem tx' mem' hnd heq
    simp only [addChunksLoop] at heq
    have hgen : ∀ c' : Chunk,
        (if encodeOk c' = false then (some "failed to encode chunk", tx, mem)
         else if putOk c'.id = false then (some "put failed", tx, mem)
         else addChunksLoop encodeOk putOk rest (mapInsert c'.id c' tx)
           (mapInsert c'.id c' mem)) = (none, tx', mem') →
        (mem'.map Prod.fst).Nodup := by
      intro c' heq'
      split_ifs at heq' with h1 h2
      · simp at heq'
      · simp at heq'
      · exact ih _ _ _ _ (nodup_keys_mapInsert c'.id c' mem hnd) heq'
    exact hgen _ heq

/-- Key-exact mirror agreement (with unique mirror keys, as a Go map has)
implies the claim's superset-consistency: every `Search` result chunk comes
from a mirror entry, whose key holds the same chunk durably; and every
durable chunk is found in the mirror at its own key. -/
theorem supersetConsistent_of_mirrorConsistent (vs : VectorStore)
    (hmc : mirrorConsistent vs) (hnd : (vs.memory.map Prod.fst).Nodup) :
    supersetConsistent vs := by
  constructor
  · intro q topK threshold r hr
    have hr' : r ∈ List.insertionSort scoreGE (searchScores vs.memory q threshold) := by
      revert hr
      show r ∈ (if topK <
            (List.insertionSort scoreGE (searchScores vs.memory q threshold)).length
          then List.take topK
            (List.insertionSort scoreGE (searchScores vs.memory q threshold))
          else List.insertionSort scoreGE (searchScores vs.memory q threshold)) →
        r ∈ List.insertionSort scoreGE (searchScores vs.memory q threshold)
      by_cases h : topK <
          (List.insertionSort scoreGE (searchScores vs.memory q threshold)).length
      · rw [if_pos h]
        exact fun hm => (List.take_sublist _ _).subset hm
      · rw [if_neg h]
        exact id
    have hrs : r ∈ searchScores vs.memory q threshold :=
      (List.perm_insertionSort scoreGE _).mem_iff.mp hr'
    obtain ⟨kv, hkvmem, _hemb, _hth, hrEq⟩ :=
      (searchScores_mem vs.memory q threshold r).mp hrs
    refine ⟨kv.1, ?_⟩
    have hfind : mapFind kv.1 vs.memory = some kv.2 :=
      mapFind_of_mem_nodup vs.memory kv hkvmem hnd
    subst hrEq
    rw [← hmc kv.1]
    exact hfind
  · intro k c hdur
    exact ⟨k, (hmc k).trans hdur⟩

/-- C2 (amended): after `NewVectorStore`'s load-on-open rebuild and after
every `AddChunks` / `DeleteByDocumentID` call that returns a `nil` error,
the in-memory mirror is a superset-consistent view of durable state in the
claim's sense — no `Search` observes a chunk that is not durably committed,
and every durably committed chunk is present in the mirror.  The proof
carries the key-exact agreement `mirrorConsistent` and the uniqueness of
the mirror's keys as the inductive invariant (established by load-on-open,
preserved by every `nil`-error mutation) and derives superset-consistency
from it at each step.  (An `AddChunks` call that returns a non-`nil` error
breaks the claimed invariant — see the counterexample.) -/
theorem vectorStore_mirror_consistency (d : List (String × Chunk))
    (encodeOk : Chunk → Bool) (putOk deleteOk : String → Bool)
    (vs₁ vs₂ vs₁' vs₂' : VectorStore) (chunks : List Chunk) (docID : String) :
    ((d.map Prod.fst).Nodup →
      mirrorConsistent (NewVectorStoreGo d) ∧
      ((NewVectorStoreGo d).memory.map Prod.fst).Nodup ∧
      supersetConsistent (NewVectorStoreGo d)) ∧
    (mirrorConsistent vs₁ → (vs₁.memory.map Prod.fst).Nodup →
      AddChunksGo encodeOk putOk vs₁ chunks = (vs₁', none) →
      mirrorConsistent vs₁' ∧ (vs₁'.memory.map Prod.fst).Nodup ∧
      supersetConsistent vs₁') ∧
    (mirrorConsistent vs₂ → (vs₂.memory.map Prod.fst).Nodup →
      DeleteByDocumentIDGo deleteOk vs₂ docID = (vs₂', none) →
      mirrorConsistent vs₂' ∧ (vs₂'.memory.map Prod.fst).Nodup ∧
      supersetConsistent vs₂') := by
  refine ⟨?_, ?_, ?_⟩
  · intro hnd
    have hmc : mirrorConsistent (NewVectorStoreGo d) := by
      intro k
      show mapFind k (loadIntoMemoryGo d) = mapFind k d
      unfold loadIntoMemoryGo
      rw [mapFind_load_aux d [] k hnd]
      by_cases hk : k ∈ d.map Prod.fst
      · simp [hk]
      · rw [if_neg hk, mapFind_eq_none_of_not_mem k d hk]
        rfl
    have hndm : ((NewVectorStoreGo d).memory.map Prod.fst).Nodup :=
      nodup_keys_load_aux d [] (by simp)
    exact ⟨hmc, hndm, supersetConsistent_of_mirrorConsistent _ hmc hndm⟩
  · intro hcons hnd heq
    unfold AddChunksGo at heq
    rcases hloop : addChunksLoop encodeOk putOk chunks vs₁.durable vs₁.memory with
      ⟨err, tx, mem⟩
    rw [hloop] at heq
    cases err with
    | none =>
      simp only [Prod.mk.injEq] at heq
      rw [← heq.1]
      have hmc : mirrorConsistent ⟨tx, mem⟩ :=
        addChunksLoop_consistent encodeOk putOk chunks _ _ _ _ hcons hloop
      have hndm : ((⟨tx, mem⟩ : VectorStore).memory.map Prod.fst).Nodup :=
        addChunksLoop_nodup encodeOk putOk chunks _ _ _ _ hnd hloop
      exact ⟨hmc, hndm, supersetConsistent_of_mirrorConsistent _ hmc hndm⟩
    | some e => simp at heq
  · intro hcons hnd heq
    unfold DeleteByDocumentIDGo at heq
    by_cases hall :
        (((vs₂.durable.filter (fun kv => kv.2.documentID = docID)).map Prod.fst).all
          deleteOk) = true
    · rw [if_pos hall] at heq
      simp only [Prod.mk.injEq] at heq
      rw [← heq.1]
      have hmc : mirrorConsistent
          ⟨vs₂.durable.filter (fun kv =>
              !(((vs₂.durable.filter (fun kv => kv.2.documentID = docID)).map
                Prod.fst).contains kv.1)),
            vs₂.memory.filter (fun kv =>
              !(((vs₂.durable.filter (fun kv => kv.2.documentID = docID)).map
                Prod.fst).contains kv.1))⟩ := by
        intro k
        show mapFind k (vs₂.memory.filter _) = mapFind k (vs₂.durable.filter _)
        rw [mapFind_filter (fun key =>
            !(((vs₂.durable.filter (fun kv => kv.2.documentID = docID)).map
              Prod.fst).contains key)) k vs₂.memory,
          mapFind_filter (fun key =>
            !(((vs₂.durable.filter (fun kv => kv.2.documentID = docID)).map
              Prod.fst).contains key)) k vs₂.durable, hcons k]
      refine ⟨hmc, ?_, supersetConsistent_of_mirrorConsistent _ hmc ?_⟩ <;>
        exact hnd.sublist ((List.filter_sublist _).map Prod.fst)
    · rw [if_neg hall] at heq
      simp at heq

/-- C2 counterexample: `AddChunks` on an empty store with two chunks whose
second fails to gob-encode returns a non-`nil` error; the transaction rolls
back, so the durable bucket stays empty, but the first chunk — with a
non-empty embedding — was already written to the in-memory mirror.  In the
resulting state a `Search` observably returns that chunk although nothing
is durably committed, so the claim's invariant ("no search may observe a
Chunk that was not durably committed"), asserted for error-returning calls
too, fails at this concrete input. -/
theorem addChunks_error_breaks_superset :
    AddChunksGo (fun c => c.index = 0) (fun _ => true) ⟨[], []⟩
        [⟨"a", "d", "x", [(1 : ℝ)], 0⟩, ⟨"b", "d", "y", [(1 : ℝ)], 1⟩] =
      (⟨[], [("a", ⟨"a", "d", "x", [(1 : ℝ)], 0⟩)]⟩, some "failed to encode chunk") ∧
    (⟨⟨"a", "d", "x", [(1 : ℝ)], 0⟩, 1, "d"⟩ : RetrievalResult) ∈
      (SearchGo [("a", ⟨"a", "d", "x", [(1 : ℝ)], 0⟩)] [(1 : ℝ)] 10 0).1 ∧
    ¬supersetConsistent ⟨[], [("a", ⟨"a", "d", "x", [(1 : ℝ)], 0⟩)]⟩ := by
  have e : (SearchGo [("a", (⟨"a", "d", "x", [(1 : ℝ)], 0⟩ : Chunk))] [(1 : ℝ)] 10 0).1 =
      [⟨⟨"a", "d", "x", [(1 : ℝ)], 0⟩, 1, "d"⟩] := by
    simp [SearchGo, searchScores, cosineSimilarity_one_one, List.insertionSort,
      List.orderedInsert, scoreGE]
  refine ⟨rfl, ?_, ?_⟩
  · rw [e]
    exact List.mem_singleton.mpr rfl
  · rintro ⟨h1, _⟩
    obtain ⟨k, hk⟩ := h1 [(1 : ℝ)] 10 0 ⟨⟨"a", "d", "x", [(1 : ℝ)], 0⟩, 1, "d"⟩
      (show _ ∈ (SearchGo [("a", (⟨"a", "d", "x", [(1 : ℝ)], 0⟩ : Chunk))]
          [(1 : ℝ)] 10 0).1 by rw [e]; exact List.mem_singleton.mpr rfl)
    simp [mapFind] at hk

theorem vectorStore_mirror_consistency_witness :
    supersetConsistent (NewVectorStoreGo [("a", ⟨"a", "d", "x", [], 0⟩)]) ∧
    supersetConsistent (⟨[("a", ⟨"a", "d", "x", [], 0⟩)], [("a", ⟨"a", "d", "x", [], 0⟩)]⟩ :
      VectorStore) ∧
    supersetConsistent (⟨[], []⟩ : VectorStore) := by
  refine ⟨?_, ?_, ?_⟩
  · exact ((vectorStore_mirror_consistency [("a", ⟨"a", "d", "x", [], 0⟩)]
      (fun _ => true) (fun _ => true) (fun _ => true) ⟨[], []⟩ ⟨[], []⟩ ⟨[], []⟩ ⟨[], []⟩
      [] "d").1 (by simp)).2.2
  · exact ((vectorStore_mirror_consistency [] (fun _ => true) (fun _ => true)
      (fun _ => true) ⟨[], []⟩ ⟨[], []⟩
      ⟨[("a", ⟨"a", "d", "x", [], 0⟩)], [("a", ⟨"a", "d", "x", [], 0⟩)]⟩ ⟨[], []⟩
      [⟨"a", "d", "x", [], 0⟩] "d").2.1 (fun _ => rfl) (by simp) rfl).2.2
  · exact ((vectorStore_mirror_consistency [] (fun _ => true) (fun _ => true)
      (fun _ => true) ⟨[], []⟩
      ⟨[("a", ⟨"a", "d", "x", [], 0⟩)], [("a", ⟨"a", "d", "x", [], 0⟩)]⟩ ⟨[], []⟩ ⟨[], []⟩
      [] "d").2.2 (fun _ => rfl) (by simp) rfl).2.2

theorem chunkFixed_window_structure_witness :
    overlapJoin 1 [['a', ' '], [' ', 'b']] = "a b".data ∧
    chunkFixed "d" "a b" 2 1 = some (mkChunks "d" 0 [['a', ' '], [' ', 'b']]) := by
  obtain ⟨ws, hwin, hchunks, _hchain, hjoin, _hcontent⟩ :=
    chunkFixed_window_structure "d" "a b" 2 1 (by decide)
  have h0 : goWindowsGo "a b".data 2 (2 - 1) ("a b".data.length + 1) 0 =
      some [['a', ' '], [' ', 'b']] := by rfl
  have hws : [['a', ' '], [' ', 'b']] = ws := Option.some.inj (h0.symm.trans hwin)
  constructor
  · rw [hws]
    exact hjoin
  · rw [hws]
    exact hchunks

/-!
### C3 — a provider error during embedding aborts IndexFile before any
persistence
-/

/-- C3: whenever an `IndexFile` call reaches the embedding stage (it was
forced, or the cache check demanded reprocessing) and the provider returns
an error, the call returns that error (wrapped) after one parse, one chunk
and one embed pass, and the indexer state is completely unchanged: no
on-disk cache entry is written and the in-process path→Document map keeps
its old contents — in particular no partially embedded chunk set is ever
persisted. -/
theorem indexFile_embed_error_aborts (ccfg : ChunkingConfig) (bs : ℕ) (env : IndexEnv)
    (st : IndexerState) (path : String) (force : Bool) (doc : Document)
    (chunks : List Chunk) (e : String)
    (hmiss : force = true ∨ (needsReindex st env path).2 = true ∨
      (needsReindex st env path).1 = none)
    (hp : ParseDocumentM env path = some doc)
    (hc : ChunkDocumentGo ccfg doc = some chunks)
    (hne : chunks.length ≠ 0)
    (he : createEmbeddings env.embedBatch bs chunks = some (Except.error e)) :
    IndexFileGo ccfg bs env st path force =
      (some (Except.error ("failed to create embeddings: " ++ e)), st, ⟨1, 1, 1⟩) := by
  have hm : indexMiss ccfg bs env st path =
      (some (Except.error ("failed to create embeddings: " ++ e)), st, ⟨1, 1, 1⟩) := by
    unfold indexMiss
    simp only [hp, hc, he, if_neg hne]
  unfold IndexFileGo
  cases force with
  | true =>
    rw [if_pos rfl]
    exact hm
  | false =>
    rw [if_neg Bool.false_ne_true]
    rcases hnr : needsReindex st env path with ⟨c, b⟩
    rcases hmiss with hf | hu | hn
    · exact absurd hf (by simp)
    · rw [hnr] at hu
      cases c with
      | none => cases b <;> exact hm
      | some cached =>
        cases b with
        | false => simp at hu
        | true => exact hm
    · rw [hnr] at hn
      cases c with
      | none => cases b <;> exact hm
      | some cached => simp at hn

theorem indexFile_embed_error_aborts_witness :
    IndexFileGo ⟨"fixed", 10, 0, 0⟩ 1
        ⟨fun _ => some "hi", fun _ => some ⟨0⟩, fun _ => some "H", fun _ => none,
          true, true⟩
        ⟨[], [], []⟩ "f" true =
      (some (Except.error "failed to create embeddings: failed to get embeddings"),
        ⟨[], [], []⟩, ⟨1, 1, 1⟩) :=
  indexFile_embed_error_aborts ⟨"fixed", 10, 0, 0⟩ 1
    ⟨fun _ => some "hi", fun _ => some ⟨0⟩, fun _ => some "H", fun _ => none, true, true⟩
    ⟨[], [], []⟩ "f" true ⟨"H", "f", "hi", "H", 0⟩
    [⟨"", "H", "hi", [], 0⟩] "failed to get embeddings"
    (Or.inl rfl) rfl rfl (by decide) rfl

/-!
### C6 — idempotent content-addressed cache
-/

/-- A successful `ParseDocument` pins down the oracle results and the
document's fields: content from the parser, id = hash from the hasher,
modification time from `stat`. -/
theorem parseDocument_inv (env : IndexEnv) (path : String) (doc : Document)
    (hp : ParseDocumentM env path = some doc) :
    env.readContent path = some doc.content ∧ env.stat path = some ⟨doc.fileModTime⟩ ∧
    env.fileHash path = some doc.hash ∧ doc.id = doc.hash ∧ doc.filePath = path := by
  unfold ParseDocumentM at hp
  rcases hrc : env.readContent path with _ | content
  · simp [hrc] at hp
  · simp only [hrc] at hp
    rcases hstt : env.stat path with _ | info
    · simp [hstt] at hp
    · simp only [hstt] at hp
      rcases hfhh : env.fileHash path with _ | hsh
      · simp [hfhh] at hp
      · simp only [hfhh] at hp
        obtain rfl := Option.some.inj hp
        obtain ⟨mt⟩ := info
        exact ⟨rfl, rfl, rfl, rfl, rfl⟩

/-- A cached document whose hash matches the file's current hash and whose
modification time has not advanced makes `needsReindex` report "no update
needed". -/
theorem needsReindex_fresh (st : IndexerState) (env : IndexEnv) (path : String)
    (doc : Document) (info : FsInfo) (hdc : mapFind path st.docCache = some doc)
    (hstt : env.stat path = some info) (hfh : env.fileHash path = some doc.hash)
    (hmt : ¬doc.fileModTime < info.modTime) :
    needsReindex st env path = (some doc, false) := by
  unfold needsReindex
  simp only [hdc, hstt, hfh]
  rw [if_neg (not_not_intro rfl), if_neg hmt]

/-- The cache-hit path of `IndexFile`: an up-to-date cached document makes
the call return the on-disk chunk set with no pipeline work and no state
change. -/
theorem indexFile_hit (ccfg : ChunkingConfig) (bs : ℕ) (env : IndexEnv)
    (st : IndexerState) (path : String) (doc : Document) (cs : List Chunk)
    (hnr : needsReindex st env path = (some doc, false))
    (hlc : loadCachedChunks st doc.id = some cs) :
    IndexFileGo ccfg bs env st path false = (some (Except.ok cs), st, ⟨0, 0, 0⟩) := by
  unfold IndexFileGo
  rw [if_neg Bool.false_ne_true]
  simp only [hnr, hlc]

/-- After a successful miss-path run that also wrote both on-disk cache
files, an immediately following non-forced `IndexFile` on the unchanged
file is a pure cache hit returning the same chunk set. -/
theorem indexMiss_roundtrip (ccfg : ChunkingConfig) (bs : ℕ) (env : IndexEnv)
    (st st₁ : IndexerState) (path : String) (r : List Chunk) (k₁ : Counters)
    (hdw : env.docWriteOk = true) (hcw : env.chunksWriteOk = true)
    (h1 : indexMiss ccfg bs env st path = (some (Except.ok r), st₁, k₁)) :
    IndexFileGo ccfg bs env st₁ path false = (some (Except.ok r), st₁, ⟨0, 0, 0⟩) := by
  unfold indexMiss at h1
  rcases hp : ParseDocumentM env path with _ | doc
  · simp [hp] at h1
  · simp only [hp] at h1
    rcases hcd : ChunkDocumentGo ccfg doc with _ | chunks
    · simp [hcd] at h1
    · simp only [hcd] at h1
      by_cases hlen : chunks.length = 0
      · simp [if_pos hlen] at h1
      · rw [if_neg hlen] at h1
        rcases hce : createEmbeddings env.embedBatch bs chunks with _ | exc
        · simp [hce] at h1
        · simp only [hce] at h1
          cases exc with
          | error e => simp at h1
          | ok embedded =>
            have hcache : cacheDocumentGo env st doc embedded =
                ⟨st.docCache, mapInsert doc.id doc st.diskDocs,
                 mapInsert doc.id embedded st.diskChunks⟩ := by
              simp [cacheDocumentGo, hdw, hcw]
            simp only [hcache, Prod.mk.injEq, Option.some.injEq, Except.ok.injEq] at h1
            obtain ⟨her, hst₁, _hk⟩ := h1
            subst her
            obtain ⟨_hrc, hstt, hfhh, _hid, _hfp⟩ := parseDocument_inv env path doc hp
            subst hst₁
            apply indexFile_hit ccfg bs env _ path doc
            · apply needsReindex_fresh _ env path doc ⟨doc.fileModTime⟩
              · exact mapFind_mapInsert_self path doc st.docCache
              · exact hstt
              · exact hfhh
              · exact lt_irrefl _
            · show mapFind doc.id (mapInsert doc.id embedded st.diskChunks) = some embedded
              exact mapFind_mapInsert_self doc.id embedded st.diskChunks

/-- C6: indexing the same unmodified file twice returns byte-identical
chunk sets with zero pipeline work on the second call.  Whenever an
`IndexFile` call succeeds (with the on-disk cache writes succeeding, the
only situation in which the claim's premise — a cached entry matching the
file — holds), the immediately following `IndexFile(path, forceReindex =
false)` against the unchanged file performs zero parse, chunk and embed
calls, leaves the indexer state untouched, and returns exactly the chunk
set of the first call. -/
theorem indexFile_cached_idempotent (ccfg : ChunkingConfig) (bs : ℕ) (env : IndexEnv)
    (st st₁ : IndexerState) (path : String) (force : Bool) (r : List Chunk)
    (k₁ : Counters) (hdw : env.docWriteOk = true) (hcw : env.chunksWriteOk = true)
    (h1 : IndexFileGo ccfg bs env st path force = (some (Except.ok r), st₁, k₁)) :
    IndexFileGo ccfg bs env st₁ path false = (some (Except.ok r), st₁, ⟨0, 0, 0⟩) := by
  unfold IndexFileGo at h1
  cases force with
  | true =>
    rw [if_pos rfl] at h1
    exact indexMiss_roundtrip ccfg bs env st st₁ path r k₁ hdw hcw h1
  | false =>
    rw [if_neg Bool.false_ne_true] at h1
    rcases hnr : needsReindex st env path with ⟨c, b⟩
    rw [hnr] at h1
    cases c with
    | none =>
      cases b <;> exact indexMiss_roundtrip ccfg bs env st st₁ path r k₁ hdw hcw h1
    | some cached =>
      cases b with
      | true => exact indexMiss_roundtrip ccfg bs env st st₁ path r k₁ hdw hcw h1
      | false =>
        rcases hlc : loadCachedChunks st cached.id with _ | cs
        · simp only [hlc] at h1
          simp at h1
        · simp only [hlc] at h1
          simp only [Prod.mk.injEq, Option.some.injEq, Except.ok.injEq] at h1
          obtain ⟨hcs, hstq, _⟩ := h1
          subst hcs
          subst hstq
          exact indexFile_hit ccfg bs env _ path cached _ hnr hlc

theorem indexFile_cached_idempotent_witness :
    IndexFileGo ⟨"fixed", 10, 0, 0⟩ 1
        ⟨fun _ => some "hi", fun _ => some ⟨0⟩, fun _ => some "H",
          fun ts => some (ts.map (fun _ => [(1 : ℝ)])), true, true⟩
        ⟨[], [], []⟩ "f" true =
      (some (Except.ok [⟨"", "H", "hi", [(1 : ℝ)], 0⟩]),
        ⟨[("f", ⟨"H", "f", "hi", "H", 0⟩)], [("H", ⟨"H", "f", "hi", "H", 0⟩)],
         [("H", [⟨"", "H", "hi", [(1 : ℝ)], 0⟩])]⟩, ⟨1, 1, 1⟩) ∧
    IndexFileGo ⟨"fixed", 10, 0, 0⟩ 1
        ⟨fun _ => some "hi", fun _ => some ⟨0⟩, fun _ => some "H",
          fun ts => some (ts.map (fun _ => [(1 : ℝ)])), true, true⟩
        ⟨[("f", ⟨"H", "f", "hi", "H", 0⟩)], [("H", ⟨"H", "f", "hi", "H", 0⟩)],
         [("H", [⟨"", "H", "hi", [(1 : ℝ)], 0⟩])]⟩ "f" false =
      (some (Except.ok [⟨"", "H", "hi", [(1 : ℝ)], 0⟩]),
        ⟨[("f", ⟨"H", "f", "hi", "H", 0⟩)], [("H", ⟨"H", "f", "hi", "H", 0⟩)],
         [("H", [⟨"", "H", "hi", [(1 : ℝ)], 0⟩])]⟩, ⟨0, 0, 0⟩) := by
  constructor
  · rfl
  · exact indexFile_cached_idempotent ⟨"fixed", 10, 0, 0⟩ 1
      ⟨fun _ => some "hi", fun _ => some ⟨0⟩, fun _ => some "H",
        fun ts => some (ts.map (fun _ => [(1 : ℝ)])), true, true⟩
      ⟨[], [], []⟩ _ "f" true _ _ rfl rfl rfl

/-!
### C1 — watcher-triggered update never supersedes stale chunks
-/

/-- C1: the claim says a watcher-triggered update fully supersedes the
chunks of the stale document version, so no search returns content from two
versions of the same file.  The code's update path (`handleFileChange` →
`IndexFile(path, true)` → `Retriever.IndexChunks` → `AddChunks`) never calls
`DeleteByDocumentID` (which no code in the repository invokes), and a
changed file gets a new content hash and hence a new `DocumentID` and new
chunk ids, so the old version's chunks stay in the store under their old
keys.  Concretely: file `"f"` was indexed with content hash `"H1"`, its
content changes to hash `"H2"`, the watcher path runs to completion — and a
search now returns chunks of document versions `"H1"` and `"H2"`
simultaneously, contradicting the claim (and the spec's "must be fully
superseded"). -/
theorem watcher_update_leaves_stale_chunks :
    ((SearchGo (handleFileUpdateGo ⟨"fixed", 100, 0, 0⟩ 1
          ⟨fun _ => some "v2", fun _ => some ⟨1⟩, fun _ => some "H2",
            fun ts => some (ts.map (fun _ => [(1 : ℝ)])), true, true⟩
          (fun _ => true) (fun _ => true) ⟨[], [], []⟩
          ⟨[("H1_0", ⟨"H1_0", "H1", "v1", [(1 : ℝ)], 0⟩)],
           [("H1_0", ⟨"H1_0", "H1", "v1", [(1 : ℝ)], 0⟩)]⟩ "f").2.memory
        [(1 : ℝ)] 10 0).1.map (fun rr => rr.documentID)) = ["H1", "H2"] ∧
    "H1" ≠ "H2" := by
  constructor
  · have hmem : (handleFileUpdateGo ⟨"fixed", 100, 0, 0⟩ 1
          ⟨fun _ => some "v2", fun _ => some ⟨1⟩, fun _ => some "H2",
            fun ts => some (ts.map (fun _ => [(1 : ℝ)])), true, true⟩
          (fun _ => true) (fun _ => true) ⟨[], [], []⟩
          ⟨[("H1_0", ⟨"H1_0", "H1", "v1", [(1 : ℝ)], 0⟩)],
           [("H1_0", ⟨"H1_0", "H1", "v1", [(1 : ℝ)], 0⟩)]⟩ "f").2.memory =
        [("H1_0", ⟨"H1_0", "H1", "v1", [(1 : ℝ)], 0⟩),
         ("H2_0", ⟨"H2_0", "H2", "v2", [(1 : ℝ)], 0⟩)] := by rfl
    rw [hmem]
    simp [SearchGo, searchScores, cosineSimilarity_one_one, List.insertionSort,
      List.orderedInsert, scoreGE]
  · decide
